import Mathlib

/-!
Verification development for the SARSA agent of this repository
(src/rlcard/agents/sarsa_agent.py).

The agent is shallowly embedded: the mutable attributes of the Python
object (self.policy, self.qualities, self.iteration) become an explicit
state record threaded through every operation; Python dictionaries become
first-match association lists keyed by the state fingerprint; numpy
quality vectors become lists of `Option ℝ`, where `none` stands for the
negative-infinity sentinel the code stores at illegal action slots
(so that softmax assigns them probability exactly 0); the environment's
step / step_back pair becomes push / pop on an explicit stack of actions.
-/

namespace Sarsa

/-- The single error condition of the masking rule (spec section 7). -/
inductive AErr where
  | DegenerateDistribution
deriving DecidableEq

/-- State fingerprints (the opaque identity keys produced by obs.tostring()). -/
abbrev Fp := ℕ

/-- One slot of a quality vector: a real value, or `none` for the
negative-infinity sentinel stored at illegal actions. -/
abbrev QEntry := Option ℝ

/-- Python dict assignment d[k] = v, modelled on first-match association
lists: the new binding shadows any previous binding of the same key. -/
def mset (m : List (Fp × α)) (k : Fp) (v : α) : List (Fp × α) :=
  (k, v) :: m

/-- The mutable attributes of SARSAAgent: self.policy, self.qualities and
self.iteration. -/
structure AgentState where
  policy : List (Fp × List ℝ)
  qualities : List (Fp × List QEntry)
  iteration : ℕ

/-- The three artifacts written to the model path by save:
policy.pkl, qualities.pkl and iteration.pkl. -/
structure Persisted where
  policy : List (Fp × List ℝ)
  qualities : List (Fp × List QEntry)
  iteration : ℕ

/-- SARSAAgent.save: pickle the three attributes to the model path. -/
def save (st : AgentState) : Persisted :=
  ⟨st.policy, st.qualities, st.iteration⟩

/-- SARSAAgent.load: if the model path does not exist (`none`) return at
once leaving the agent untouched; otherwise unpickle the three files and
overwrite the three attributes with their contents. -/
def load (fs : Option Persisted) (st : AgentState) : AgentState :=
  match fs with
  | none => st
  | some p => ⟨p.policy, p.qualities, p.iteration⟩

/-- exp extended to quality entries: the exponential of the
negative-infinity sentinel is exactly 0. -/
noncomputable def eexp (x : QEntry) : ℝ :=
  match x with
  | none => 0
  | some v => Real.exp v

/-- scipy.special.softmax on a quality vector.  scipy computes
exp (x - max x) / sum (exp (x - max x)); whenever at least one entry is
finite the shift by the maximum cancels and the result equals
exp x / sum (exp x), which is the form embedded here. -/
noncomputable def softmax (q : List QEntry) : List ℝ :=
  q.map (fun x => eexp x / (q.map eexp).sum)

/-- The probability vector with all mass at illegal slots zeroed out. -/
noncomputable def maskVec (probs : List ℝ) (legal : List ℕ) : List ℝ :=
  (List.range probs.length).map
    (fun i => if i ∈ legal then probs.getD i 0 else 0)

/-- Modelled from the spec: remove_illegal, imported by the agent from
rlcard/utils/utils.py, is code of this repository that is not among the
provided sources.  Per the spec's masking rule (sections 4.2 and 7): zero
the probability mass on illegal actions, renormalize the remaining mass
to sum to 1, and fail with DegenerateDistribution when no legal action
carries positive mass, rather than divide by zero. -/
noncomputable def removeIllegal (probs : List ℝ) (legal : List ℕ) :
    Except AErr (List ℝ) :=
  if ∃ a ∈ legal, 0 < probs.getD a 0 then
    Except.ok ((maskVec probs legal).map
      (fun x => x / (maskVec probs legal).sum))
  else
    Except.error AErr.DegenerateDistribution

/-- The constructor arguments of SARSAAgent that stay fixed during
training: the hyperparameters, the agent's seat and the size of the
environment's static action space. -/
structure Params where
  alpha : ℝ
  gamma : ℝ
  agentId : ℕ
  numActions : ℕ

/-- SARSAAgent.action_probs.  If the fingerprint is new to both mappings,
build the initial quality vector (0 at legal slots, the negative-infinity
sentinel elsewhere), store it, store its softmax as the new policy entry;
otherwise read the stored policy entry (self.policy is a defaultdict, so
reading a missing key inserts an empty vector).  Either way the vector
handed back goes through remove_illegal first.  The store mutation
happens before masking, so it survives even a masking failure. -/
noncomputable def action_probs (p : Params) (obs : Fp) (legal : List ℕ)
    (st : AgentState) : Except AErr (List ℝ) × AgentState :=
  if (st.policy.lookup obs).isNone && (st.qualities.lookup obs).isNone then
    let tactions := (List.range p.numActions).map
      (fun a => if a ∈ legal then some (0 : ℝ) else none)
    let probs0 := softmax tactions
    let st1 : AgentState :=
      ⟨mset st.policy obs probs0, mset st.qualities obs tactions, st.iteration⟩
    (removeIllegal probs0 legal, st1)
  else
    match st.policy.lookup obs with
    | some pv => (removeIllegal pv legal, st)
    | none =>
        (removeIllegal [] legal,
         ⟨mset st.policy obs [], st.qualities, st.iteration⟩)

/-- The assignment performed on one quality slot by update_policy:
qf[i] += alpha * (target - qf[i]). -/
def stepToward (alpha target q : ℝ) : ℝ :=
  q + alpha * (target - q)

/-- stepToward lifted to a quality slot.  The agent only ever supplies
targets for legal actions, whose slots are finite; on the
negative-infinity sentinel the numpy expression would produce NaN and is
never exercised, so the sentinel is left in place. -/
def updateSlot (alpha target : ℝ) (q : QEntry) : QEntry :=
  match q with
  | some v => some (stepToward alpha target v)
  | none => none

/-- SARSAAgent.update_policy: read the stored quality vector
(self.qualities is a defaultdict, so a missing key reads as the empty
vector), move each supplied slot toward its target by the step size
alpha, store the updated vector back, and overwrite the policy entry with
the softmax of the full updated vector.  next_state_values is a Python
dict built in legal-action order, modelled as an association list. -/
noncomputable def update_policy (p : Params) (obs : Fp)
    (nsv : List (ℕ × ℝ)) (st : AgentState) : AgentState :=
  let qf := match st.qualities.lookup obs with
    | some v => v
    | none => []
  let qf1 := nsv.foldl
    (fun q it => q.set it.1 (updateSlot p.alpha it.2 (q.getD it.1 none))) qf
  ⟨mset st.policy obs (softmax qf1), mset st.qualities obs qf1, st.iteration⟩

/-- np.argmax: the index of the first occurrence of the maximum of a
list (numpy documents the first occurrence on ties; numpy is third-party
library code, embedded by its documented semantics). -/
noncomputable def argmaxIdx : List ℝ → ℕ
  | [] => 0
  | [_] => 0
  | x :: y :: xs =>
      if x < (y :: xs).getD (argmaxIdx (y :: xs)) 0 then
        argmaxIdx (y :: xs) + 1
      else 0

/-- SARSAAgent.eval_step: fetch the masked probability vector for the
observation (creating a fresh store entry if unseen), pick the action by
np.argmax, and report, for each position i of the legal-action list, the
raw representation raw[i] mapped to the probability at slot legal[i]. -/
noncomputable def eval_step {R : Type} (p : Params) (obs : Fp)
    (legal : List ℕ) (raw : List R) (st : AgentState) :
    Except AErr (ℕ × List (R × ℝ)) × AgentState :=
  match action_probs p obs legal st with
  | (Except.error e, st1) => (Except.error e, st1)
  | (Except.ok probs, st1) =>
      (Except.ok (argmaxIdx probs,
        (legal.zip raw).map (fun ar => (ar.2, probs.getD ar.1 0))), st1)

mutual
/-- The game tree presented by the environment, rooted at the node the
traversal is called at.  A term node carries the per-seat payoff vector
returned by get_payoffs.  An opp node is a node where it is not the
learning agent's turn: the seated opponent's policy (an opaque external
call) picks one action, leading to one child.  An agent node carries the
fingerprint the encoder produces there and, in static index order, the
legal actions paired with the child each one steps to. -/
inductive GTree where
  | term (chips : List ℝ)
  | opp (act : ℕ) (child : GTree)
  | agent (obs : Fp) (children : GForest)
inductive GForest where
  | nil
  | cons (act : ℕ) (child : GTree) (rest : GForest)
end

/-- The legal-action list of an agent node, as handed out by get_state. -/
def GForest.acts : GForest → List ℕ
  | .nil => []
  | .cons a _ rest => a :: rest.acts

/-- The environment's current node, identified by the stack of actions
stepped from the root: env.step pushes, env.step_back pops. -/
abbrev Env := List ℕ

mutual
/-- SARSAAgent.traverse_tree.  Terminal node: return the agent's payoff.
Opponent node: step by the opponent's action, recurse, step back, return
the child value unchanged.  Agent node: fetch the masked probabilities,
then for each legal action step, recurse, step back, accumulate the
probability-weighted child value and record the child value as that
action's quality target; finally run update_policy and return the
accumulated value times gamma.  A masking failure propagates like the
Python exception would: the store keeps whatever was already written and
the environment stays wherever the failure found it. -/
noncomputable def traverse (p : Params) (t : GTree) (env : Env)
    (st : AgentState) : Except AErr ℝ × Env × AgentState :=
  match t with
  | .term chips => (Except.ok (chips.getD p.agentId 0), env, st)
  | .opp a child =>
      match traverse p child (a :: env) st with
      | (Except.error e, env1, st1) => (Except.error e, env1, st1)
      | (Except.ok v, env1, st1) => (Except.ok v, env1.tail, st1)
  | .agent obs children =>
      match action_probs p obs children.acts st with
      | (Except.error e, st1) => (Except.error e, env, st1)
      | (Except.ok probs, st1) =>
          match travChildren p children probs env st1 with
          | (Except.error e, env2, st2) => (Except.error e, env2, st2)
          | (Except.ok (value, qual), env2, st2) =>
              (Except.ok (value * p.gamma), env2,
               update_policy p obs qual st2)

/-- The loop over legal actions inside the agent branch of
traverse_tree, threading value accumulation, the quality dict, the
environment and the store in program order. -/
noncomputable def travChildren (p : Params) (f : GForest) (probs : List ℝ)
    (env : Env) (st : AgentState) :
    Except AErr (ℝ × List (ℕ × ℝ)) × Env × AgentState :=
  match f with
  | .nil => (Except.ok (0, []), env, st)
  | .cons a c rest =>
      match traverse p c (a :: env) st with
      | (Except.error e, env1, st1) => (Except.error e, env1, st1)
      | (Except.ok q, env1, st1) =>
          match travChildren p rest probs env1.tail st1 with
          | (Except.error e, env2, st2) => (Except.error e, env2, st2)
          | (Except.ok (v, qs), env2, st2) =>
              (Except.ok (probs.getD a 0 * q + v, (a, q) :: qs), env2, st2)
end

/-- SARSAAgent.train: one iteration bumps the counter, resets the
environment to the root (the empty action stack) and traverses once. -/
noncomputable def train (p : Params) (root : GTree) (st : AgentState) :
    Except AErr ℝ × Env × AgentState :=
  let st1 : AgentState := ⟨st.policy, st.qualities, st.iteration + 1⟩
  traverse p root [] st1

/-- The Store invariant: a fingerprint is present in the quality mapping
exactly when it is present in the policy mapping. -/
def StoreSync (st : AgentState) : Prop :=
  ∀ fp : Fp, (st.policy.lookup fp).isSome ↔ (st.qualities.lookup fp).isSome

/-- The sibling-restoration characterization of the agent-branch loop:
each recorded quality target is exactly the value returned by recursing
into that action's child, every sibling is explored from the same
starting environment, and the store is threaded left to right. -/
def IsChildVals (p : Params) : GForest → Env → AgentState →
    List (ℕ × ℝ) → AgentState → Prop
  | .nil, _, st, qual, stFin => qual = [] ∧ stFin = st
  | .cons a c rest, env, st, qual, stFin =>
      ∃ q env1 st1 qs,
        traverse p c (a :: env) st = (Except.ok q, env1, st1) ∧
        qual = (a, q) :: qs ∧ IsChildVals p rest env st1 qs stFin

/-! ### Helper lemmas about the store model -/

theorem lookup_mset_self (m : List (Fp × α)) (k : Fp) (v : α) :
    (mset m k v).lookup k = some v := by
  simp [mset]

theorem lookup_mset_ne (m : List (Fp × α)) (k k1 : Fp) (v : α)
    (h : k1 ≠ k) : (mset m k v).lookup k1 = m.lookup k1 := by
  have hb : (k1 == k) = false := beq_eq_false_iff_ne.mpr h
  simp [mset, List.lookup_cons, hb]

/-! ### C10: load on a missing model path -/

/-- C10: calling load when the model location does not exist returns
normally and leaves the policy mapping, the quality mapping and the
iteration counter exactly as they were. -/
theorem load_missing_noop (st : AgentState) :
    load none st = st ∧
    (load none st).policy = st.policy ∧
    (load none st).qualities = st.qualities ∧
    (load none st).iteration = st.iteration :=
  ⟨rfl, rfl, rfl, rfl⟩

/-! ### C9: load performs no validation -/

/-- A persisted state whose two mappings have mismatched key sets
(fingerprint 0 has a policy entry but no quality entry) and whose
iteration counter differs from the fresh agent's. -/
def persistedBad : Persisted := ⟨[(0, [1])], [], 5⟩

/-- A freshly constructed agent: empty store, iteration counter 0. -/
def agent0 : AgentState := ⟨[], [], 0⟩

/-- C9 counterexample: loading a persisted state whose two mappings have
mismatched key sets does not fail and does not leave the in-memory state
unchanged — load returns normally and overwrites the agent, iteration
counter included, with the corrupt contents. -/
theorem load_no_validation_cex :
    ((persistedBad.policy.lookup 0).isSome ∧
      ¬ (persistedBad.qualities.lookup 0).isSome) ∧
    load (some persistedBad) agent0 ≠ agent0 ∧
    (load (some persistedBad) agent0).iteration = 5 ∧
    agent0.iteration = 0 := by
  refine ⟨⟨by simp [persistedBad], by simp [persistedBad]⟩, ?_, rfl, rfl⟩
  intro h
  have h5 : (load (some persistedBad) agent0).iteration = agent0.iteration := by
    rw [h]
  simp [load, persistedBad, agent0] at h5

/-- C9 amended: load performs no validation at all — for every persisted
state, mismatched key sets and wrong vector lengths included, it returns
normally and unconditionally replaces the in-memory mappings and
iteration counter with the persisted contents. -/
theorem load_unconditional (p : Persisted) (st : AgentState) :
    (load (some p) st).policy = p.policy ∧
    (load (some p) st).qualities = p.qualities ∧
    (load (some p) st).iteration = p.iteration :=
  ⟨rfl, rfl, rfl⟩

/-! ### C8: the update rule is a contraction toward the target -/

theorem stepToward_sub (alpha t q : ℝ) :
    stepToward alpha t q - t = (1 - alpha) * (q - t) := by
  simp only [stepToward]; ring

theorem stepToward_iter_sub (alpha t q0 : ℝ) (n : ℕ) :
    (stepToward alpha t)^[n] q0 - t = (1 - alpha) ^ n * (q0 - t) := by
  induction n with
  | zero => simp
  | succ n ih =>
      rw [Function.iterate_succ_apply', stepToward_sub, ih, pow_succ]
      ring

/-- C8: for any step size alpha in (0, 1] and finite slot value, the slot
assignment of update_policy is exactly stepToward; iterating stepToward
with a constant target moves the value strictly toward the target at
every step (unless already equal) and converges to the target. -/
theorem stepToward_contracts (alpha t q0 : ℝ) (h0 : 0 < alpha)
    (h1 : alpha ≤ 1) :
    (∀ x, updateSlot alpha t (some x) = some (stepToward alpha t x)) ∧
    (∀ n : ℕ, (stepToward alpha t)^[n] q0 ≠ t →
      |(stepToward alpha t)^[n + 1] q0 - t| <
        |(stepToward alpha t)^[n] q0 - t|) ∧
    Filter.Tendsto (fun n => (stepToward alpha t)^[n] q0)
      Filter.atTop (nhds t) := by
  refine ⟨fun x => rfl, ?_, ?_⟩
  · intro n hne
    rw [Function.iterate_succ_apply', stepToward_sub, abs_mul]
    have hd : (stepToward alpha t)^[n] q0 - t ≠ 0 := sub_ne_zero_of_ne hne
    have hda : 0 < |(stepToward alpha t)^[n] q0 - t| := abs_pos.mpr hd
    have h2 : |1 - alpha| < 1 := by
      rw [abs_of_nonneg (by linarith)]; linarith
    calc |1 - alpha| * |(stepToward alpha t)^[n] q0 - t|
        < 1 * |(stepToward alpha t)^[n] q0 - t| :=
          mul_lt_mul_of_pos_right h2 hda
      _ = |(stepToward alpha t)^[n] q0 - t| := one_mul _
  · have hrep : (fun n => (stepToward alpha t)^[n] q0) =
        fun n => (1 - alpha) ^ n * (q0 - t) + t := by
      funext n
      have := stepToward_iter_sub alpha t q0 n
      linarith
    rw [hrep]
    have hpow : Filter.Tendsto (fun n : ℕ => (1 - alpha) ^ n)
        Filter.atTop (nhds 0) :=
      tendsto_pow_atTop_nhds_zero_of_lt_one (by linarith) (by linarith)
    have := (hpow.mul_const (q0 - t)).add_const t
    simpa using this

/-- Witness for C8 at alpha = 1/2, target 1, start 0. -/
theorem stepToward_contracts_witness :
    Filter.Tendsto (fun n => (stepToward (1/2) 1)^[n] 0)
      Filter.atTop (nhds 1) :=
  (stepToward_contracts (1/2) 1 0 (by norm_num) (by norm_num)).2.2

/-! ### C2: update_policy moves exactly the supplied slots -/

/-- The slot-update fold of update_policy, named for the lemmas below. -/
def slotFold (alpha : ℝ) (nsv : List (ℕ × ℝ)) (qf : List QEntry) :
    List QEntry :=
  nsv.foldl
    (fun q it => q.set it.1 (updateSlot alpha it.2 (q.getD it.1 none))) qf

theorem slotFold_length (alpha : ℝ) (nsv : List (ℕ × ℝ)) :
    ∀ qf : List QEntry, (slotFold alpha nsv qf).length = qf.length := by
  induction nsv with
  | nil => intro qf; rfl
  | cons hd tl ih =>
      intro qf
      simp only [slotFold, List.foldl_cons] at ih ⊢
      rw [ih]
      exact List.length_set qf hd.1 _

theorem slotFold_getD_not_mem (alpha : ℝ) (nsv : List (ℕ × ℝ)) :
    ∀ (qf : List QEntry) (i : ℕ), i ∉ nsv.map Prod.fst →
      (slotFold alpha nsv qf).getD i none = qf.getD i none := by
  induction nsv with
  | nil => intro qf i _; rfl
  | cons hd tl ih =>
      intro qf i hi
      simp only [List.map_cons, List.mem_cons] at hi
      push_neg at hi
      simp only [slotFold, List.foldl_cons] at ih ⊢
      rw [ih _ i hi.2]
      simp only [List.getD_eq_getElem?_getD]
      rw [List.getElem?_set_ne (Ne.symm hi.1)]

theorem slotFold_getD_mem (alpha : ℝ) (nsv : List (ℕ × ℝ)) :
    (nsv.map Prod.fst).Nodup →
    ∀ (qf : List QEntry) (i : ℕ) (t : ℝ), (i, t) ∈ nsv → i < qf.length →
      (slotFold alpha nsv qf).getD i none =
        updateSlot alpha t (qf.getD i none) := by
  induction nsv with
  | nil => intro _ qf i t hm; cases hm
  | cons hd tl ih =>
      intro hnd qf i t hm hlen
      simp only [List.map_cons, List.nodup_cons] at hnd
      simp only [slotFold, List.foldl_cons] at ih ⊢
      rcases List.mem_cons.mp hm with heq | htl
      · obtain ⟨j, s⟩ := hd
        injection heq with h1 h2
        subst h1; subst h2
        have hnotin : i ∉ tl.map Prod.fst := by
          simpa using hnd.1
        have := slotFold_getD_not_mem alpha tl
          (qf.set i (updateSlot alpha t (qf.getD i none))) i hnotin
        simp only [slotFold] at this
        rw [this]
        simp only [List.getD_eq_getElem?_getD]
        rw [List.getElem?_set_self hlen]
        rfl
      · have hne : i ≠ hd.1 := by
          intro hcon
          exact hnd.1 (hcon ▸ List.mem_map_of_mem Prod.fst htl)
        have hlen1 : i < (qf.set hd.1 (updateSlot alpha hd.2
            (qf.getD hd.1 none))).length := by
          rw [List.length_set]; exact hlen
        rw [ih hnd.2 _ i t htl hlen1]
        simp only [List.getD_eq_getElem?_getD]
        rw [List.getElem?_set_ne (Ne.symm hne)]

/-- C2: for a stored fingerprint and a map of action index to target,
update_policy moves exactly the supplied slots of the stored quality
vector by the assignment q + alpha * (target - q), leaves every other
slot unchanged, and overwrites the stored probability vector with the
softmax of the full updated quality vector. -/
theorem update_policy_moves_supplied_slots (p : Params) (obs : Fp)
    (nsv : List (ℕ × ℝ)) (st : AgentState) (qf : List QEntry)
    (hq : st.qualities.lookup obs = some qf)
    (hnd : (nsv.map Prod.fst).Nodup)
    (hlt : ∀ it ∈ nsv, it.1 < qf.length) :
    ∃ qf1, (update_policy p obs nsv st).qualities.lookup obs = some qf1 ∧
      qf1.length = qf.length ∧
      (∀ i t x, (i, t) ∈ nsv → qf.getD i none = some x →
        qf1.getD i none = some (x + p.alpha * (t - x))) ∧
      (∀ i, i ∉ nsv.map Prod.fst → qf1.getD i none = qf.getD i none) ∧
      (update_policy p obs nsv st).policy.lookup obs =
        some (softmax qf1) := by
  refine ⟨slotFold p.alpha nsv qf, ?_, slotFold_length p.alpha nsv qf,
    ?_, ?_, ?_⟩
  · simp only [update_policy, hq, slotFold]
    exact lookup_mset_self _ _ _
  · intro i t x hm hx
    rw [slotFold_getD_mem p.alpha nsv hnd qf i t hm (hlt _ hm), hx]
    simp [updateSlot, stepToward]
  · intro i hi
    exact slotFold_getD_not_mem p.alpha nsv qf i hi
  · simp only [update_policy, hq, slotFold]
    exact lookup_mset_self _ _ _

/-- Concrete parameters for witnesses: alpha 1/2, gamma 9/10, seat 0,
two static actions. -/
noncomputable def pW : Params := ⟨1/2, 9/10, 0, 2⟩

/-- A concrete store holding fingerprint 3 with quality vector
[2, negative infinity] and policy vector [1, 0]. -/
def stW : AgentState := ⟨[(3, [1, 0])], [(3, [some 2, none])], 0⟩

/-- Witness for C2: one update with target 4 at slot 0 of the stored
vector of fingerprint 3. -/
theorem update_policy_moves_supplied_slots_witness :
    ∃ qf1, (update_policy pW 3 [(0, 4)] stW).qualities.lookup 3 =
        some qf1 ∧
      qf1.length = [some (2 : ℝ), none].length ∧
      (∀ i t x, (i, t) ∈ [((0 : ℕ), (4 : ℝ))] →
        [some (2 : ℝ), none].getD i none = some x →
        qf1.getD i none = some (x + pW.alpha * (t - x))) ∧
      (∀ i, i ∉ [((0 : ℕ), (4 : ℝ))].map Prod.fst →
        qf1.getD i none = [some (2 : ℝ), none].getD i none) ∧
      (update_policy pW 3 [(0, 4)] stW).policy.lookup 3 =
        some (softmax qf1) :=
  update_policy_moves_supplied_slots pW 3 [(0, 4)] stW [some 2, none]
    (by simp [stW])
    (by simp)
    (by intro it hit; simp at hit; subst hit; norm_num)

/-! ### C5: the masking rule -/

theorem sum_map_div (l : List ℝ) (s : ℝ) :
    (l.map (fun x => x / s)).sum = l.sum / s := by
  induction l with
  | nil => simp
  | cons x xs ih => simp [ih, add_div]

theorem maskVec_getD (probs : List ℝ) (legal : List ℕ) (i : ℕ)
    (h : i < probs.length) :
    (maskVec probs legal).getD i 0 =
      if i ∈ legal then probs.getD i 0 else 0 := by
  simp only [maskVec, List.getD_eq_getElem?_getD, List.getElem?_map,
    List.getElem?_range h, Option.map_some']
  rfl

theorem maskVec_nonneg (probs : List ℝ) (legal : List ℕ)
    (hpos : ∀ q ∈ probs, 0 ≤ q) :
    ∀ x ∈ maskVec probs legal, 0 ≤ x := by
  intro x hx
  simp only [maskVec, List.mem_map, List.mem_range] at hx
  obtain ⟨i, hi, rfl⟩ := hx
  by_cases hm : i ∈ legal
  · simp only [hm, if_true]
    have hval : probs.getD i 0 = probs[i] := by
      simp [List.getD_eq_getElem?_getD, List.getElem?_eq_getElem hi]
    rw [hval]
    exact hpos _ (List.getElem_mem hi)
  · simp [hm]

/-- C5 (spec-modelled): masking to the legal set zeroes mass at illegal
slots and renormalizes the rest to sum to 1; if no legal action carries
positive mass, including the all-negative-infinity quality case whose
softmax places no mass anywhere, the operation fails with
DegenerateDistribution instead of dividing by zero. -/
theorem removeIllegal_masking (probs : List ℝ) (legal : List ℕ) :
    ((∀ a ∈ legal, probs.getD a 0 ≤ 0) →
      removeIllegal probs legal =
        Except.error AErr.DegenerateDistribution) ∧
    (∀ r, removeIllegal probs legal = Except.ok r →
      (∀ q ∈ probs, 0 ≤ q) →
      r.length = probs.length ∧
      (∀ i, i < probs.length → i ∉ legal → r.getD i 0 = 0) ∧
      r.sum = 1) := by
  constructor
  · intro hz
    rw [removeIllegal]
    rw [if_neg]
    rintro ⟨a, ha, hpos⟩
    exact absurd hpos (not_lt.mpr (hz a ha))
  · intro r hr hpos
    rw [removeIllegal] at hr
    by_cases hex : ∃ a ∈ legal, 0 < probs.getD a 0
    · rw [if_pos hex] at hr
      obtain ⟨a, ha, hapos⟩ := hex
      have halen : a < probs.length := by
        by_contra hge
        rw [List.getD_eq_getElem?_getD,
          List.getElem?_eq_none (Nat.le_of_not_lt hge)] at hapos
        exact lt_irrefl 0 hapos
      have hmem : probs.getD a 0 ∈ maskVec probs legal := by
        have : (if a ∈ legal then probs.getD a 0 else 0) ∈
            maskVec probs legal := by
          exact List.mem_map_of_mem _ (List.mem_range.mpr halen)
        simpa [ha] using this
      have hsumpos : 0 < (maskVec probs legal).sum :=
        lt_of_lt_of_le hapos
          (List.single_le_sum (maskVec_nonneg probs legal hpos) _ hmem)
      have hrval : r = (maskVec probs legal).map
          (fun x => x / (maskVec probs legal).sum) := by
        injection hr with h
        exact h.symm
      refine ⟨?_, ?_, ?_⟩
      · rw [hrval]
        simp [maskVec]
      · intro i hi hnm
        rw [hrval]
        have hlen2 : i < (maskVec probs legal).length := by
          simp [maskVec, hi]
        simp only [List.getD_eq_getElem?_getD, List.getElem?_map,
          List.getElem?_eq_getElem hlen2, Option.map_some']
        have : (maskVec probs legal)[i] =
            (maskVec probs legal).getD i 0 := by
          simp [List.getD_eq_getElem?_getD, List.getElem?_eq_getElem hlen2]
        rw [Option.getD_some, this, maskVec_getD probs legal i hi,
          if_neg hnm, zero_div]
      · rw [hrval, sum_map_div, div_self (ne_of_gt hsumpos)]
    · rw [if_neg hex] at hr
      cases hr

/-- Witness for C5: a vector with no positive mass on the legal set is
rejected, and a positive vector is renormalized to sum 1. -/
theorem removeIllegal_masking_witness :
    removeIllegal [0, 0] [0] = Except.error AErr.DegenerateDistribution :=
  (removeIllegal_masking [0, 0] [0]).1 (by
    intro a ha
    simp only [List.mem_singleton] at ha
    subst ha
    norm_num)

/-! ### C7: first-visit initialization yields the uniform legal policy -/

theorem sum_range_indicator :
    ∀ (n : ℕ) (legal : List ℕ), legal.Nodup → (∀ a ∈ legal, a < n) →
    ((List.range n).map (fun i => if i ∈ legal then (1 : ℝ) else 0)).sum =
      legal.length := by
  intro n
  induction n with
  | zero =>
      intro legal _ hb
      match legal, hb with
      | [], _ => simp
      | a :: rest, hb =>
          exact absurd (hb a (List.mem_cons_self a rest)) (Nat.not_lt_zero a)
  | succ n ih =>
      intro legal hnd hb
      rw [List.range_succ, List.map_append, List.sum_append]
      by_cases hn : n ∈ legal
      · have hcong : ∀ i ∈ List.range n,
            (if i ∈ legal then (1 : ℝ) else 0) =
              (if i ∈ legal.erase n then 1 else 0) := by
          intro i hi
          have hin : i < n := List.mem_range.mp hi
          have hiff : i ∈ legal.erase n ↔ i ∈ legal :=
            List.mem_erase_of_ne (by omega)
          by_cases hil : i ∈ legal
          · rw [if_pos hil, if_pos (hiff.mpr hil)]
          · rw [if_neg hil, if_neg (fun hc => hil (hiff.mp hc))]
        rw [List.map_congr_left hcong]
        rw [ih (legal.erase n) (hnd.erase n) ?bound]
        case bound =>
          intro a ha
          obtain ⟨h2, h1⟩ := (hnd.mem_erase_iff).mp ha
          have := hb a h1
          omega
        have hlen : legal.length = (legal.erase n).length + 1 := by
          rw [List.length_erase_of_mem hn]
          have := List.length_pos.mpr (List.ne_nil_of_mem hn)
          omega
        rw [hlen]
        simp [hn]
      · have hbound : ∀ a ∈ legal, a < n := by
          intro a ha
          have := hb a ha
          have : a ≠ n := fun hc => hn (hc ▸ ha)
          omega
        rw [ih legal hnd hbound]
        simp [hn]

/-- The initial quality vector built at first visit: 0 at legal slots,
the negative-infinity sentinel everywhere else. -/
def initQual (numActions : ℕ) (legal : List ℕ) : List QEntry :=
  (List.range numActions).map
    (fun a => if a ∈ legal then some (0 : ℝ) else none)

theorem initQual_getD (numActions : ℕ) (legal : List ℕ) (i : ℕ)
    (h : i < numActions) :
    (initQual numActions legal).getD i none =
      if i ∈ legal then some (0 : ℝ) else none := by
  simp only [initQual, List.getD_eq_getElem?_getD, List.getElem?_map,
    List.getElem?_range h, Option.map_some']
  rfl

theorem initQual_eexp_sum (numActions : ℕ) (legal : List ℕ)
    (hnd : legal.Nodup) (hsub : ∀ a ∈ legal, a < numActions) :
    ((initQual numActions legal).map eexp).sum = legal.length := by
  rw [initQual, List.map_map]
  have hcong : ∀ a ∈ List.range numActions,
      (eexp ∘ fun a => if a ∈ legal then some (0 : ℝ) else none) a =
        (fun i => if i ∈ legal then (1 : ℝ) else 0) a := by
    intro a _
    by_cases ha : a ∈ legal
    · simp [ha, eexp, Real.exp_zero]
    · simp [ha, eexp]
  rw [List.map_congr_left hcong]
  exact sum_range_indicator numActions legal hnd hsub

/-- C7: on first visit, action_probs stores a quality vector over the
full static action space with 0 at every legal index and the
negative-infinity sentinel at every other index, and stores as policy the
softmax of that vector, which is the uniform distribution over the legal
actions and zero elsewhere. -/
theorem action_probs_init_uniform (p : Params) (obs : Fp)
    (legal : List ℕ) (st : AgentState)
    (hp : (st.policy.lookup obs).isNone)
    (hq : (st.qualities.lookup obs).isNone)
    (hnd : legal.Nodup)
    (hsub : ∀ a ∈ legal, a < p.numActions) :
    (action_probs p obs legal st).2.qualities.lookup obs =
        some (initQual p.numActions legal) ∧
      (initQual p.numActions legal).length = p.numActions ∧
      (∀ i, i < p.numActions →
        (initQual p.numActions legal).getD i none =
          if i ∈ legal then some (0 : ℝ) else none) ∧
      (action_probs p obs legal st).2.policy.lookup obs =
        some (softmax (initQual p.numActions legal)) ∧
      (∀ i, i < p.numActions →
        (softmax (initQual p.numActions legal)).getD i 0 =
          if i ∈ legal then 1 / (legal.length : ℝ) else 0) := by
  have hcond : ((st.policy.lookup obs).isNone &&
      (st.qualities.lookup obs).isNone) = true := by
    rw [hp, hq]
    rfl
  refine ⟨?_, by simp [initQual], initQual_getD p.numActions legal, ?_, ?_⟩
  · simp only [action_probs, hcond, if_true]
    exact lookup_mset_self _ _ _
  · simp only [action_probs, hcond, if_true]
    exact lookup_mset_self _ _ _
  · intro i hi
    have hlen : i < (initQual p.numActions legal).length := by
      simp [initQual, hi]
    simp only [softmax, List.getD_eq_getElem?_getD, List.getElem?_map,
      List.getElem?_eq_getElem hlen, Option.map_some', Option.getD_some]
    have hget : (initQual p.numActions legal)[i] =
        (initQual p.numActions legal).getD i none := by
      simp [List.getD_eq_getElem?_getD, List.getElem?_eq_getElem hlen]
    rw [hget, initQual_getD p.numActions legal i hi,
      initQual_eexp_sum p.numActions legal hnd hsub]
    by_cases hil : i ∈ legal
    · simp [hil, eexp, Real.exp_zero]
    · simp [hil, eexp]

/-- Parameters with three static actions, for the C7 witness. -/
noncomputable def pW3 : Params := ⟨1/2, 9/10, 0, 3⟩

/-- Witness for C7: first visit of fingerprint 4 with legal actions
0 and 2 out of a 3-action space, starting from the empty store. -/
theorem action_probs_init_uniform_witness :
    (action_probs pW3 4 [0, 2] agent0).2.qualities.lookup 4 =
        some (initQual pW3.numActions [0, 2]) ∧
      (initQual pW3.numActions [0, 2]).length = pW3.numActions ∧
      (∀ i, i < pW3.numActions →
        (initQual pW3.numActions [0, 2]).getD i none =
          if i ∈ [0, 2] then some (0 : ℝ) else none) ∧
      (action_probs pW3 4 [0, 2] agent0).2.policy.lookup 4 =
        some (softmax (initQual pW3.numActions [0, 2])) ∧
      (∀ i, i < pW3.numActions →
        (softmax (initQual pW3.numActions [0, 2])).getD i 0 =
          if i ∈ [0, 2] then 1 / (([0, 2] : List ℕ).length : ℝ) else 0) :=
  action_probs_init_uniform pW3 4 [0, 2] agent0
    (by simp [agent0])
    (by simp [agent0])
    (by decide)
    (by decide)

/-! ### C6: inference-mode action selection is greedy with lowest-index
tie-breaking -/

theorem argmaxIdx_spec (l : List ℝ) (hne : l ≠ []) :
    argmaxIdx l < l.length ∧
    (∀ j, j < l.length → l.getD j 0 ≤ l.getD (argmaxIdx l) 0) ∧
    (∀ j, j < argmaxIdx l → l.getD j 0 < l.getD (argmaxIdx l) 0) := by
  match l with
  | [] => exact absurd rfl hne
  | [x] =>
      refine ⟨by simp [argmaxIdx], ?_, ?_⟩
      · intro j hj
        have hj0 : j = 0 := by simp at hj; omega
        subst hj0
        simp [argmaxIdx]
      · intro j hj
        simp [argmaxIdx] at hj
  | x :: y :: xs =>
      obtain ⟨ih1, ih2, ih3⟩ := argmaxIdx_spec (y :: xs) (by simp)
      have hdef : argmaxIdx (x :: y :: xs) =
          if x < (y :: xs).getD (argmaxIdx (y :: xs)) 0 then
            argmaxIdx (y :: xs) + 1
          else 0 := rfl
      by_cases hlt : x < (y :: xs).getD (argmaxIdx (y :: xs)) 0
      · rw [hdef, if_pos hlt]
        refine ⟨?_, ?_, ?_⟩
        · simpa using ih1
        · intro j hj
          cases j with
          | zero => simpa using le_of_lt hlt
          | succ j =>
              simp only [List.getD_cons_succ]
              exact ih2 j (by simpa using hj)
        · intro j hj
          cases j with
          | zero => simpa using hlt
          | succ j =>
              simp only [List.getD_cons_succ]
              exact ih3 j (by omega)
      · rw [hdef, if_neg hlt]
        refine ⟨by simp, ?_, ?_⟩
        · intro j hj
          cases j with
          | zero => simp
          | succ j =>
              simp only [List.getD_cons_succ, List.getD_cons_zero]
              exact le_trans (ih2 j (by simpa using hj)) (not_lt.mp hlt)
        · intro j hj
          exact absurd hj (Nat.not_lt_zero j)

/-- C6: eval_step deterministically returns np.argmax of the masked
probability vector — the index of its maximum value, ties broken by the
lowest index — and its diagnostics pair the external representation of
the i-th legal action with the probability at slot legal[i]. -/
theorem eval_step_greedy {R : Type} (p : Params) (obs : Fp)
    (legal : List ℕ) (raw : List R) (st : AgentState) (probs : List ℝ)
    (st1 : AgentState)
    (hap : action_probs p obs legal st = (Except.ok probs, st1))
    (hne : probs ≠ []) :
    eval_step p obs legal raw st =
      (Except.ok (argmaxIdx probs,
        (legal.zip raw).map (fun ar => (ar.2, probs.getD ar.1 0))), st1) ∧
    argmaxIdx probs < probs.length ∧
    (∀ j, j < probs.length →
      probs.getD j 0 ≤ probs.getD (argmaxIdx probs) 0) ∧
    (∀ j, j < argmaxIdx probs →
      probs.getD j 0 < probs.getD (argmaxIdx probs) 0) ∧
    (∀ i, i < legal.length → i < raw.length →
      ∃ r, raw[i]? = some r ∧
        ((legal.zip raw).map (fun ar => (ar.2, probs.getD ar.1 0)))[i]? =
          some (r, probs.getD (legal.getD i 0) 0)) := by
  obtain ⟨h1, h2, h3⟩ := argmaxIdx_spec probs hne
  refine ⟨?_, h1, h2, h3, ?_⟩
  · rw [eval_step, hap]
  · intro i hi hr
    refine ⟨raw[i], List.getElem?_eq_getElem hr, ?_⟩
    have hzl : (legal.zip raw)[i]? = some (legal.getD i 0, raw[i]) := by
      rw [List.getElem?_zip_eq_some]
      constructor
      · simp [List.getD_eq_getElem?_getD, List.getElem?_eq_getElem hi]
      · exact List.getElem?_eq_getElem hr
    rw [List.getElem?_map, hzl, Option.map_some']

/-- A store already holding fingerprint 7: policy [1/4, 3/4] over two
legal actions. -/
noncomputable def stW6 : AgentState :=
  ⟨[(7, [1/4, 3/4])], [(7, [some 0, some 1])], 2⟩

/-- Witness for C6 at the seen fingerprint 7 with both actions legal and
raw representations 10 and 11: masking keeps [1/4, 3/4]. -/
theorem eval_step_greedy_witness :
    eval_step pW 7 [0, 1] [10, 11] stW6 =
      (Except.ok (argmaxIdx [1/4 / (1/4 + (3/4 + 0)), 3/4 / (1/4 + (3/4 + 0))],
        (([0, 1] : List ℕ).zip ([10, 11] : List ℕ)).map
          (fun ar => (ar.2,
            ([1/4 / (1/4 + (3/4 + 0)), 3/4 / (1/4 + (3/4 + 0))] :
              List ℝ).getD ar.1 0))), stW6) ∧
    argmaxIdx [1/4 / (1/4 + (3/4 + 0)), 3/4 / (1/4 + (3/4 + 0))] <
      ([1/4 / (1/4 + (3/4 + 0)), 3/4 / (1/4 + (3/4 + 0))] : List ℝ).length ∧
    (∀ j, j < ([1/4 / (1/4 + (3/4 + 0)), 3/4 / (1/4 + (3/4 + 0))] :
        List ℝ).length →
      ([1/4 / (1/4 + (3/4 + 0)), 3/4 / (1/4 + (3/4 + 0))] :
        List ℝ).getD j 0 ≤
      ([1/4 / (1/4 + (3/4 + 0)), 3/4 / (1/4 + (3/4 + 0))] : List ℝ).getD
        (argmaxIdx [1/4 / (1/4 + (3/4 + 0)), 3/4 / (1/4 + (3/4 + 0))]) 0) ∧
    (∀ j, j < argmaxIdx [1/4 / (1/4 + (3/4 + 0)), 3/4 / (1/4 + (3/4 + 0))] →
      ([1/4 / (1/4 + (3/4 + 0)), 3/4 / (1/4 + (3/4 + 0))] :
        List ℝ).getD j 0 <
      ([1/4 / (1/4 + (3/4 + 0)), 3/4 / (1/4 + (3/4 + 0))] : List ℝ).getD
        (argmaxIdx [1/4 / (1/4 + (3/4 + 0)), 3/4 / (1/4 + (3/4 + 0))]) 0) ∧
    (∀ i, i < ([0, 1] : List ℕ).length → i < ([10, 11] : List ℕ).length →
      ∃ r, (([10, 11] : List ℕ))[i]? = some r ∧
        ((([0, 1] : List ℕ).zip ([10, 11] : List ℕ)).map
          (fun ar => (ar.2,
            ([1/4 / (1/4 + (3/4 + 0)), 3/4 / (1/4 + (3/4 + 0))] :
              List ℝ).getD ar.1 0)))[i]? =
          some (r,
            ([1/4 / (1/4 + (3/4 + 0)), 3/4 / (1/4 + (3/4 + 0))] :
              List ℝ).getD (([0, 1] : List ℕ).getD i 0) 0)) :=
  eval_step_greedy pW 7 [0, 1] [10, 11] stW6
    [1/4 / (1/4 + (3/4 + 0)), 3/4 / (1/4 + (3/4 + 0))] stW6
    (by
      have hcond : ((stW6.policy.lookup 7).isNone &&
          (stW6.qualities.lookup 7).isNone) = false := by
        simp [stW6]
      rw [action_probs, hcond]
      simp only [Bool.false_eq_true, if_false]
      have hlk : stW6.policy.lookup 7 = some [1/4, 3/4] := by
        simp [stW6]
      rw [hlk]
      show (removeIllegal [1/4, 3/4] [0, 1], stW6) = _
      have hpos : ∃ a ∈ ([0, 1] : List ℕ),
          0 < ([1/4, 3/4] : List ℝ).getD a 0 := ⟨0, by simp, by norm_num⟩
      rw [removeIllegal, if_pos hpos]
      have hmask : maskVec [1/4, 3/4] [0, 1] = [(1 : ℝ)/4, 3/4] := by
        simp [maskVec, List.range_succ]
      rw [hmask]
      simp only [List.map_cons, List.map_nil, List.sum_cons, List.sum_nil])
    (by simp)

/-! ### C4: every step is paired with one step_back -/

mutual
theorem traverse_env_eq (p : Params) (t : GTree) :
    ∀ env st v env1 st1,
      traverse p t env st = (Except.ok v, env1, st1) → env1 = env := by
  match t with
  | .term chips =>
      intro env st v env1 st1 h
      simp only [traverse, Prod.mk.injEq] at h
      exact h.2.1.symm
  | .opp a c =>
      intro env st v env1 st1 h
      simp only [traverse] at h
      rcases hc : traverse p c (a :: env) st with ⟨r, env2, st2⟩
      cases r with
      | error e => rw [hc] at h; simp at h
      | ok q =>
          rw [hc] at h
          simp only [Prod.mk.injEq, Except.ok.injEq] at h
          have henv2 : env2 = a :: env :=
            traverse_env_eq p c (a :: env) st q env2 st2 hc
          rw [← h.2.1, henv2]
          rfl
  | .agent obs cs =>
      intro env st v env1 st1 h
      simp only [traverse] at h
      split at h
      · simp at h
      · rename_i probs sta ha
        split at h
        · simp at h
        · rename_i value qual env2 st2 hc
          simp only [Prod.mk.injEq, Except.ok.injEq] at h
          rw [← h.2.1]
          exact travChildren_env_eq p cs probs env sta value qual
            env2 st2 hc

theorem travChildren_env_eq (p : Params) (f : GForest) :
    ∀ probs env st value qual env1 st1,
      travChildren p f probs env st =
        (Except.ok (value, qual), env1, st1) → env1 = env := by
  match f with
  | .nil =>
      intro probs env st value qual env1 st1 h
      simp only [travChildren, Prod.mk.injEq] at h
      exact h.2.1.symm
  | .cons a c rest =>
      intro probs env st value qual env1 st1 h
      simp only [travChildren] at h
      split at h
      · simp at h
      · rename_i q env2 st2 hc
        split at h
        · simp at h
        · rename_i v2 qs env3 st3 hr
          simp only [Prod.mk.injEq, Except.ok.injEq] at h
          have h2 : env2 = a :: env :=
            traverse_env_eq p c (a :: env) st q env2 st2 hc
          have h3 : env3 = env2.tail :=
            travChildren_env_eq p rest probs env2.tail st2 v2 qs
              env3 st3 hr
          rw [← h.2.1, h3, h2]
          rfl
end

/-- C4: traverse pairs every environment step with exactly one step_back
before returning — whenever it returns a value, the environment is back
at exactly the node it was called at; consequently one train call (which
resets to the root) leaves the environment at the root it reset to. -/
theorem traverse_restores_env (p : Params) :
    (∀ t env st v env1 st1,
      traverse p t env st = (Except.ok v, env1, st1) → env1 = env) ∧
    (∀ root st v env1 st1,
      train p root st = (Except.ok v, env1, st1) → env1 = []) := by
  constructor
  · intro t env st v env1 st1 h
    exact traverse_env_eq p t env st v env1 st1 h
  · intro root st v env1 st1 h
    exact traverse_env_eq p root []
      ⟨st.policy, st.qualities, st.iteration + 1⟩ v env1 st1 h

/-- Witness for C4: an opponent node above a terminal node, entered with
the environment two steps deep, is left exactly where it was entered. -/
theorem traverse_restores_env_witness : ([3] : Env) = [3] :=
  (traverse_restores_env pW).1 (GTree.opp 2 (GTree.term [5])) [3] agent0
    5 [3] agent0 rfl

/-! ### C1: on-policy value accumulation -/

theorem travChildren_chr (p : Params) (f : GForest) :
    ∀ probs env st value qual env1 st1,
      travChildren p f probs env st =
        (Except.ok (value, qual), env1, st1) →
      value = (qual.map (fun aq => probs.getD aq.1 0 * aq.2)).sum ∧
      qual.map Prod.fst = f.acts ∧
      IsChildVals p f env st qual st1 := by
  match f with
  | .nil =>
      intro probs env st value qual env1 st1 h
      simp only [travChildren, Prod.mk.injEq, Except.ok.injEq] at h
      obtain ⟨⟨hv, hq⟩, _, hst⟩ := h
      subst hv; subst hq; subst hst
      exact ⟨by simp, rfl, rfl, rfl⟩
  | .cons a c rest =>
      intro probs env st value qual env1 st1 h
      simp only [travChildren] at h
      split at h
      · simp at h
      · rename_i q env2 st2 hc
        split at h
        · simp at h
        · rename_i v2 qs env3 st3 hr
          simp only [Prod.mk.injEq, Except.ok.injEq] at h
          obtain ⟨⟨hv, hq⟩, _, hst⟩ := h
          subst hv; subst hq; subst hst
          obtain ⟨ihv, ihacts, ihicv⟩ :=
            travChildren_chr p rest probs env2.tail st2 v2 qs env3 st3 hr
          have htl : env2.tail = env := by
            rw [traverse_env_eq p c (a :: env) st q env2 st2 hc]
            rfl
          refine ⟨?_, ?_, ?_⟩
          · simp only [List.map_cons, List.sum_cons]
            rw [ihv]
          · simp only [List.map_cons, GForest.acts, ihacts]
          · exact ⟨q, env2, st2, qs, hc, rfl, htl ▸ ihicv⟩

/-- C1: at a node where it is not the learning agent's turn, traverse
returns the recursed child value unchanged with no discount applied; at
an agent decision node it fetches the masked action probabilities,
recurses once into every legal action in order, and returns gamma times
the probability-weighted sum of the recursed child values, gamma applied
exactly once at that node (the recorded quality dict is then handed to
update_policy). -/
theorem traverse_onpolicy_value (p : Params) :
    (∀ a c env st v env1 st1,
      traverse p (GTree.opp a c) env st = (Except.ok v, env1, st1) →
      ∃ env2 st2, traverse p c (a :: env) st = (Except.ok v, env2, st2)) ∧
    (∀ obs cs env st v env1 st1,
      traverse p (GTree.agent obs cs) env st = (Except.ok v, env1, st1) →
      ∃ probs sta value qual env2 st2,
        action_probs p obs cs.acts st = (Except.ok probs, sta) ∧
        travChildren p cs probs env sta =
          (Except.ok (value, qual), env2, st2) ∧
        qual.map Prod.fst = cs.acts ∧
        IsChildVals p cs env sta qual st2 ∧
        value = (qual.map (fun aq => probs.getD aq.1 0 * aq.2)).sum ∧
        v = value * p.gamma ∧
        st1 = update_policy p obs qual st2) := by
  constructor
  · intro a c env st v env1 st1 h
    simp only [traverse] at h
    split at h
    · simp at h
    · rename_i q env2 st2 hc
      simp only [Prod.mk.injEq, Except.ok.injEq] at h
      exact ⟨env2, st2, h.1 ▸ hc⟩
  · intro obs cs env st v env1 st1 h
    simp only [traverse] at h
    split at h
    · simp at h
    · rename_i probs sta ha
      split at h
      · simp at h
      · rename_i value qual env2 st2 hc
        simp only [Prod.mk.injEq, Except.ok.injEq] at h
        obtain ⟨ihv, ihacts, ihicv⟩ :=
          travChildren_chr p cs probs env sta value qual env2 st2 hc
        exact ⟨probs, sta, value, qual, env2, st2, ha, hc, ihacts, ihicv,
          ihv, h.1.symm, h.2.2.symm⟩

/-- Witness for C1: an opponent node over a terminal node returns the
child's payoff unchanged. -/
theorem traverse_onpolicy_value_witness :
    ∃ env2 st2, traverse pW (GTree.term [7]) (2 :: [9]) agent0 =
      (Except.ok 7, env2, st2) :=
  (traverse_onpolicy_value pW).1 2 (GTree.term [7]) [9] agent0 7 [9]
    agent0 rfl

/-! ### C3: the quality/policy mappings stay in sync -/

theorem action_probs_sync (p : Params) (obs : Fp) (legal : List ℕ)
    (st : AgentState) (hs : StoreSync st) :
    StoreSync (action_probs p obs legal st).2 := by
  by_cases hcond : ((st.policy.lookup obs).isNone &&
      (st.qualities.lookup obs).isNone) = true
  · simp only [action_probs, hcond, if_true]
    intro fp
    by_cases hfp : fp = obs
    · subst hfp
      simp [lookup_mset_self]
    · show ((mset st.policy obs _).lookup fp).isSome ↔
        ((mset st.qualities obs _).lookup fp).isSome
      rw [lookup_mset_ne _ _ _ _ hfp, lookup_mset_ne _ _ _ _ hfp]
      exact hs fp
  · have hcond2 : ((st.policy.lookup obs).isNone &&
        (st.qualities.lookup obs).isNone) = false :=
      Bool.eq_false_iff.mpr hcond
    simp only [action_probs, hcond2, Bool.false_eq_true, if_false]
    rcases hp : st.policy.lookup obs with _ | pv
    · exfalso
      rcases hq : st.qualities.lookup obs with _ | qv
      · rw [hp, hq] at hcond2
        simp at hcond2
      · have h2 := hs obs
        rw [hp, hq] at h2
        simp at h2
    · exact hs

theorem update_policy_sync (p : Params) (obs : Fp) (nsv : List (ℕ × ℝ))
    (st : AgentState) (hs : StoreSync st) :
    StoreSync (update_policy p obs nsv st) := by
  intro fp
  by_cases hfp : fp = obs
  · subst hfp
    simp [update_policy, lookup_mset_self]
  · show ((mset st.policy obs _).lookup fp).isSome ↔
      ((mset st.qualities obs _).lookup fp).isSome
    rw [lookup_mset_ne _ _ _ _ hfp, lookup_mset_ne _ _ _ _ hfp]
    exact hs fp

mutual
theorem traverse_sync (p : Params) (t : GTree) :
    ∀ env st, StoreSync st → StoreSync (traverse p t env st).2.2 := by
  match t with
  | .term chips => intro env st hs; exact hs
  | .opp a c =>
      intro env st hs
      have hchild := traverse_sync p c (a :: env) st hs
      rcases hc : traverse p c (a :: env) st with ⟨r, env1, st1⟩
      rw [hc] at hchild
      cases r with
      | error e => simpa [traverse, hc] using hchild
      | ok q => simpa [traverse, hc] using hchild
  | .agent obs cs =>
      intro env st hs
      have hsa := action_probs_sync p obs cs.acts st hs
      rcases ha : action_probs p obs cs.acts st with ⟨ra, sta⟩
      rw [ha] at hsa
      cases ra with
      | error e => simpa [traverse, ha] using hsa
      | ok probs =>
          have hsc := travChildren_sync p cs probs env sta hsa
          rcases hc : travChildren p cs probs env sta with ⟨rc, envc, stc⟩
          rw [hc] at hsc
          cases rc with
          | error e => simpa [traverse, ha, hc] using hsc
          | ok vq =>
              obtain ⟨value, qual⟩ := vq
              have := update_policy_sync p obs qual stc hsc
              simpa [traverse, ha, hc] using this

theorem travChildren_sync (p : Params) (f : GForest) :
    ∀ probs env st, StoreSync st →
      StoreSync (travChildren p f probs env st).2.2 := by
  match f with
  | .nil => intro probs env st hs; exact hs
  | .cons a c rest =>
      intro probs env st hs
      have hchild := traverse_sync p c (a :: env) st hs
      rcases hc : traverse p c (a :: env) st with ⟨r, env1, st1⟩
      rw [hc] at hchild
      cases r with
      | error e => simpa [travChildren, hc] using hchild
      | ok q =>
          have hrest := travChildren_sync p rest probs env1.tail st1 hchild
          rcases hr : travChildren p rest probs env1.tail st1 with
            ⟨rr, env2, st2⟩
          rw [hr] at hrest
          cases rr with
          | error e => simpa [travChildren, hc, hr] using hrest
          | ok vq =>
              obtain ⟨v2, qs⟩ := vq
              simpa [travChildren, hc, hr] using hrest
end

theorem eval_step_state {R : Type} (p : Params) (obs : Fp)
    (legal : List ℕ) (raw : List R) (st : AgentState) :
    (eval_step p obs legal raw st).2 = (action_probs p obs legal st).2 := by
  rcases h : action_probs p obs legal st with ⟨r, st1⟩
  cases r with
  | error e => simp [eval_step, h]
  | ok probs => simp [eval_step, h]

/-- C3 counterexample: load is among the listed operations, yet loading
a persisted state whose mappings have mismatched key sets turns a
synchronized store into one violating the invariant. -/
theorem load_breaks_store_sync :
    StoreSync agent0 ∧ ¬ StoreSync (load (some persistedBad) agent0) := by
  constructor
  · intro fp
    simp [agent0]
  · intro h
    have h0 := h 0
    simp [load, persistedBad] at h0

/-- C3 amended: every in-memory operation — action_probs (which creates
the two entries of a first-visited fingerprint together, as one unit,
before returning), update_policy, the tree traversal, train, eval_step
and save — preserves the invariant that a fingerprint is in the quality
mapping exactly when it is in the policy mapping; load preserves it
exactly when the persisted mappings themselves have matching key sets
(load swaps in the persisted mappings without any check). -/
theorem store_sync_preserved (p : Params) :
    (∀ obs legal st, StoreSync st →
      StoreSync (action_probs p obs legal st).2) ∧
    (∀ obs legal (st : AgentState),
      (st.policy.lookup obs).isNone → (st.qualities.lookup obs).isNone →
      ∃ tact,
        (action_probs p obs legal st).2.qualities.lookup obs = some tact ∧
        (action_probs p obs legal st).2.policy.lookup obs =
          some (softmax tact)) ∧
    (∀ obs nsv st, StoreSync st →
      StoreSync (update_policy p obs nsv st)) ∧
    (∀ t env st, StoreSync st → StoreSync (traverse p t env st).2.2) ∧
    (∀ root st, StoreSync st → StoreSync (train p root st).2.2) ∧
    (∀ (R : Type) (obs : Fp) (legal : List ℕ) (raw : List R) st,
      StoreSync st → StoreSync (eval_step p obs legal raw st).2) ∧
    (∀ st : AgentState, (save st).policy = st.policy ∧
      (save st).qualities = st.qualities) ∧
    (∀ pers st, StoreSync st →
      (∀ fp : Fp, (pers.policy.lookup fp).isSome ↔
        (pers.qualities.lookup fp).isSome) →
      StoreSync (load (some pers) st)) ∧
    (∀ st, StoreSync st → StoreSync (load none st)) := by
  refine ⟨action_probs_sync p, ?_, update_policy_sync p,
    traverse_sync p, ?_, ?_, fun st => ⟨rfl, rfl⟩, ?_, fun st hs => hs⟩
  · intro obs legal st hp hq
    have hcond : ((st.policy.lookup obs).isNone &&
        (st.qualities.lookup obs).isNone) = true := by
      rw [hp, hq]
      rfl
    refine ⟨(List.range p.numActions).map
      (fun a => if a ∈ legal then some (0 : ℝ) else none), ?_, ?_⟩
    · simp only [action_probs, hcond, if_true]
      exact lookup_mset_self _ _ _
    · simp only [action_probs, hcond, if_true]
      exact lookup_mset_self _ _ _
  · intro root st hs
    exact traverse_sync p root [] ⟨st.policy, st.qualities, st.iteration + 1⟩ hs
  · intro R obs legal raw st hs
    rw [eval_step_state]
    exact action_probs_sync p obs legal st hs
  · intro pers st hs hm fp
    exact hm fp

/-- Witness for C3 amended: the first conjunct applied to the empty,
synchronized store. -/
theorem store_sync_preserved_witness :
    StoreSync (action_probs pW 1 [0] agent0).2 :=
  (store_sync_preserved pW).1 1 [0] agent0 (by intro fp; simp [agent0])

end Sarsa
